import Mathlib

/-!
# Verification of the CH Economy Simulation core

A shallow embedding, in Lean 4, of the simulation engine of the
collectible-card economy simulator: the data model, the coin ledger
(`simulation/coin_economy.py`), progression and gating
(`simulation/progression.py`), the rarity-decision drop algorithm
(`simulation/drop_algorithm.py`), the greedy upgrade engine
(`simulation/upgrade_engine.py`) and the shareable-config codec
(`simulation/url_config.py`), together with theorems settling the spec's
claims about them.

Python `int` is embedded as `ℤ` (streak counters, which are only ever
zeroed or incremented, as `ℕ`), Python `float` arithmetic as exact real
(`ℝ`) or rational (`ℚ`) arithmetic, Python lists as `List`, dictionaries
as association lists or (for the total, validated per-category tables)
as functions out of `CardCategory`.  Mutation of `GameState`, `Card` and
`CoinLedger` is embedded as explicit state passing.

The repository's `simulation/models.py` (the pure data model, no
behavior) is not present in the examined sources; its shapes are
modelled from the spec's §3 "DATA MODEL" and from how every other module
uses them.
-/

namespace CHEcon

/-! ## Data model

Modelled from the spec: `simulation/models.py` is absent from the
examined sources.  The entity shapes below follow spec §3 (Card,
CardCategory, StreakState, ProgressionMapping, UpgradeTable, SimConfig,
GameState) and the field accesses made by the simulation modules. -/

/-- The closed category enumeration: GOLD_SHARED and BLUE_SHARED are
jointly "shared", UNIQUE is disjoint. -/
inductive CardCategory where
  | GOLD_SHARED
  | BLUE_SHARED
  | UNIQUE
deriving DecidableEq, Repr

/-- A card: identity, category, current level and banked duplicates. -/
structure Card where
  id : String
  name : String
  category : CardCategory
  level : ℤ
  duplicates : ℤ
deriving DecidableEq, Repr

instance : Inhabited Card := ⟨⟨"", "", CardCategory.GOLD_SHARED, 1, 0⟩⟩

/-- Streak state: consecutive-pull counters for the rarity dimension plus
per-color / per-hero maps reserved for a finer-grained phase. -/
structure StreakState where
  streak_shared : ℕ
  streak_unique : ℕ
  streak_per_color : List (String × ℕ)
  streak_per_hero : List (String × ℕ)
deriving DecidableEq, Repr

/-- Two parallel ordered sequences defining the unique-level gating step
function. -/
structure ProgressionMapping where
  shared_levels : List ℤ
  unique_levels : List ℤ
deriving DecidableEq, Repr

/-- Per-category upgrade cost/benefit tables, indexed by `level - 1`. -/
structure UpgradeTable where
  duplicate_costs : List ℤ
  coin_costs : List ℤ
  bluestar_rewards : List ℤ
deriving DecidableEq, Repr

/-- Per-category coins-per-duplicate table. -/
structure CoinPerDupe where
  coins_per_dupe : List ℤ
deriving DecidableEq, Repr

/-- Immutable run configuration (the fields the core modules read).
`upgrade_tables` is a total per-category map (spec §9: dictionary-keyed
tables are validated once and read through total lookups);
`coin_per_duplicate` is read with `.get`, so it stays partial. -/
structure SimConfig where
  upgrade_tables : CardCategory → UpgradeTable
  coin_per_duplicate : CardCategory → Option CoinPerDupe
  progression_mapping : ProgressionMapping
  unique_unlock_schedule : List (ℤ × ℤ)
  num_days : ℤ
  base_shared_rate : ℚ
  base_unique_rate : ℚ
  max_shared_level : ℤ
  max_unique_level : ℤ

/-- Mutable per-run state: current day, the card collection, currencies. -/
structure GameState where
  day : ℤ
  cards : List Card
  coins : ℤ
  total_bluestars : ℤ

/-! ## Coin ledger (`simulation/coin_economy.py`) -/

/-- One coin transaction; `source` is `"income"` or `"spend"`. -/
structure CoinTransaction where
  amount : ℤ
  source : String
  card_id : String
  day : ℤ
deriving DecidableEq, Repr

/-- Balance plus append-only transaction log. -/
structure CoinLedger where
  balance : ℤ
  transactions : List CoinTransaction
deriving DecidableEq, Repr

/-- `CoinLedger.add_income`: unconditionally credit and append an income
transaction. -/
def CoinLedger.add_income (l : CoinLedger) (amount : ℤ) (card_id : String)
    (day : ℤ) : CoinLedger :=
  { balance := l.balance + amount
    transactions := l.transactions ++ [⟨amount, "income", card_id, day⟩] }

/-- `CoinLedger.spend`: reject (returning `false`, state unchanged) when
`balance < amount`; otherwise debit and append a spend transaction.
The Python method mutates `self` and returns a `bool`; the embedding
returns the flag together with the post-call ledger. -/
def CoinLedger.spend (l : CoinLedger) (amount : ℤ) (card_id : String)
    (day : ℤ) : Bool × CoinLedger :=
  if l.balance < amount then (false, l)
  else
    (true,
      { balance := l.balance - amount
        transactions := l.transactions ++ [⟨amount, "spend", card_id, day⟩] })

/-! ## Progression and gating (`simulation/progression.py`) -/

/-- The `for`/`break` scan inside `get_max_unique_level`: walk the
`shared_levels` list in order, remembering the last entry `≤ avg`, and
stop at the first entry `> avg`.  Returns the final value of the
`applicable_level` variable. -/
def find_applicable (avg : ℚ) : List ℤ → Option ℤ
  | [] => none
  | x :: xs =>
      if (x : ℚ) ≤ avg then some ((find_applicable avg xs).getD x)
      else none

/-- `get_max_unique_level`: floor lookup of the gated maximum unique
level.  Empty mapping lists give `1`; no applicable entry gives the
first `unique_levels` entry; otherwise the `unique_levels` entry at the
index (`list.index`, i.e. first occurrence) of the applicable entry. -/
def get_max_unique_level (avg_shared_level : ℚ) (mapping : ProgressionMapping) :
    ℤ :=
  if mapping.shared_levels = [] ∨ mapping.unique_levels = [] then 1
  else
    match find_applicable avg_shared_level mapping.shared_levels with
    | none => mapping.unique_levels.getD 0 0
    | some a =>
        mapping.unique_levels.getD (mapping.shared_levels.indexOf a) 0

/-- `compute_progression_score`: unique cards `min (level/10) 1`, shared
cards `min (level/100) 1`. -/
def compute_progression_score (card : Card) (_mapping : ProgressionMapping) :
    ℚ :=
  if card.category = CardCategory.UNIQUE then min ((card.level : ℚ) / 10) 1
  else min ((card.level : ℚ) / 100) 1

/-- `compute_category_progression`: mean progression score over the cards
of one category, `0` when the category is empty. -/
def compute_category_progression (cards : List Card) (category : CardCategory)
    (mapping : ProgressionMapping) : ℚ :=
  let category_cards := cards.filter (fun c => c.category = category)
  if category_cards = [] then 0
  else
    (category_cards.map (fun c => compute_progression_score c mapping)).sum /
      (category_cards.length : ℚ)

/-- `can_upgrade_unique`: `ValueError` on a non-unique card (embedded as
`Except.error`), otherwise whether the level is strictly below the gated
maximum. -/
def can_upgrade_unique (card : Card) (avg_shared_level : ℚ)
    (mapping : ProgressionMapping) : Except String Bool :=
  if card.category ≠ CardCategory.UNIQUE then
    Except.error "can_upgrade_unique only works with UNIQUE cards"
  else
    Except.ok (decide (card.level < get_max_unique_level avg_shared_level mapping))

/-- `get_unlocked_unique_count`: sum of schedule entries with day key
`≤ day`. -/
def get_unlocked_unique_count (day : ℤ) (schedule : List (ℤ × ℤ)) : ℤ :=
  (schedule.filter (fun e => e.1 ≤ day)).map Prod.snd |>.sum

/-! ## Drop algorithm (`simulation/drop_algorithm.py`)

Python float arithmetic is embedded as exact real arithmetic; the
module constants `STREAK_DECAY_SHARED = 0.6`, `STREAK_DECAY_UNIQUE = 0.3`
and `GAP_BASE = 1.5` keep their names.  `decide_rarity` is split into
named intermediates (step 1 scores, step 2 weights, step 3 penalized
weights, step 4 normalized probability) followed by the step 5 roll;
each intermediate is exactly the like-named local of the Python
function. -/

def STREAK_DECAY_SHARED : ℝ := 0.6

def STREAK_DECAY_UNIQUE : ℝ := 0.3

def GAP_BASE : ℝ := 1.5

/-- Step 1, `s_shared`: mean of the gold and blue category progressions. -/
def s_shared (game_state : GameState) (config : SimConfig) : ℚ :=
  (compute_category_progression game_state.cards CardCategory.GOLD_SHARED
      config.progression_mapping +
    compute_category_progression game_state.cards CardCategory.BLUE_SHARED
      config.progression_mapping) / 2

/-- Step 1, `s_unique`: unique category progression. -/
def s_unique (game_state : GameState) (config : SimConfig) : ℚ :=
  compute_category_progression game_state.cards CardCategory.UNIQUE
    config.progression_mapping

/-- Step 2, `gap = s_unique - s_shared`. -/
def gap (game_state : GameState) (config : SimConfig) : ℚ :=
  s_unique game_state config - s_shared game_state config

/-- Step 2, `w_shared = base_shared_rate * GAP_BASE ** gap`. -/
noncomputable def w_shared (game_state : GameState) (config : SimConfig) : ℝ :=
  (config.base_shared_rate : ℝ) * GAP_BASE ^ ((gap game_state config : ℝ))

/-- Step 2, `w_unique = base_unique_rate * GAP_BASE ** (-gap)`. -/
noncomputable def w_unique (game_state : GameState) (config : SimConfig) : ℝ :=
  (config.base_unique_rate : ℝ) * GAP_BASE ^ (-(gap game_state config : ℝ))

/-- Step 3, `final_shared = w_shared * STREAK_DECAY_SHARED ** streak_shared`. -/
noncomputable def final_shared (game_state : GameState) (config : SimConfig)
    (streak_state : StreakState) : ℝ :=
  w_shared game_state config * STREAK_DECAY_SHARED ^ streak_state.streak_shared

/-- Step 3, `final_unique = w_unique * STREAK_DECAY_UNIQUE ** streak_unique`. -/
noncomputable def final_unique (game_state : GameState) (config : SimConfig)
    (streak_state : StreakState) : ℝ :=
  w_unique game_state config * STREAK_DECAY_UNIQUE ^ streak_state.streak_unique

/-- Step 4, `prob_shared = final_shared / (final_shared + final_unique)`. -/
noncomputable def prob_shared (game_state : GameState) (config : SimConfig)
    (streak_state : StreakState) : ℝ :=
  final_shared game_state config streak_state /
    (final_shared game_state config streak_state +
      final_unique game_state config streak_state)

/-- Step 4, `prob_unique = final_unique / (final_shared + final_unique)`
(present in the source as a comment — "not needed for roll" — but named
by the spec's normalization property). -/
noncomputable def prob_unique (game_state : GameState) (config : SimConfig)
    (streak_state : StreakState) : ℝ :=
  final_unique game_state config streak_state /
    (final_shared game_state config streak_state +
      final_unique game_state config streak_state)

/-- Step 5 and the whole of `decide_rarity`.  The optional `Random`
source is embedded as the uniform `[0,1)` value it would produce:
`rng = none` is the deterministic mode (GOLD_SHARED iff
`prob_shared ≥ 0.5`), `rng = some u` the Monte Carlo mode (GOLD_SHARED
iff `u < prob_shared`). -/
noncomputable def decide_rarity (game_state : GameState) (config : SimConfig)
    (streak_state : StreakState) (rng : Option ℝ) : CardCategory :=
  match rng with
  | none =>
      if prob_shared game_state config streak_state ≥ 0.5 then
        CardCategory.GOLD_SHARED
      else CardCategory.UNIQUE
  | some u =>
      if u < prob_shared game_state config streak_state then
        CardCategory.GOLD_SHARED
      else CardCategory.UNIQUE

/-- `update_rarity_streak`: a new `StreakState` with the chosen rarity's
streak incremented and the other rarity's streak zeroed; the per-color
and per-hero maps are copied unchanged. -/
def update_rarity_streak (streak_state : StreakState) (chosen : CardCategory) :
    StreakState :=
  if chosen = CardCategory.GOLD_SHARED ∨ chosen = CardCategory.BLUE_SHARED then
    { streak_shared := streak_state.streak_shared + 1
      streak_unique := 0
      streak_per_color := streak_state.streak_per_color
      streak_per_hero := streak_state.streak_per_hero }
  else
    { streak_shared := 0
      streak_unique := streak_state.streak_unique + 1
      streak_per_color := streak_state.streak_per_color
      streak_per_hero := streak_state.streak_per_hero }

/-! ## Coin income (`simulation/coin_economy.py`, continued) -/

/-- The max level of a card's category under `config`
(`config.max_unique_level` for UNIQUE, `config.max_shared_level` for the
two shared categories). -/
def maxLevelFor (config : SimConfig) (category : CardCategory) : ℤ :=
  if category = CardCategory.UNIQUE then config.max_unique_level
  else config.max_shared_level

/-- `compute_coin_income`: a maxed card earns the flat first table entry;
a non-maxed card earns `table[level-1] * duplicates_received`; a category
absent from `coin_per_duplicate` earns `0`.  List indexing is embedded
as `List.getD` (the simulation only indexes with in-range `level - 1`,
levels being `≥ 1` and tables covering the level range). -/
def compute_coin_income (card : Card) (duplicates_received : ℤ)
    (config : SimConfig) : ℤ :=
  let is_maxed := card.level ≥ maxLevelFor config card.category
  match config.coin_per_duplicate card.category with
  | none => 0
  | some coin_per_dupe_data =>
      let coins_per_dupe_table := coin_per_dupe_data.coins_per_dupe
      if is_maxed then coins_per_dupe_table.getD 0 0
      else coins_per_dupe_table.getD (card.level - 1).toNat 0 * duplicates_received

/-! ## Upgrade engine (`simulation/upgrade_engine.py`)

The Python engine holds `Card` objects aliased between
`game_state.cards` and the candidate list, and mutates them in place.
The embedding refers to cards by their index in `game_state.cards`:
the candidate list is a list of indices, and executing an upgrade
rebuilds the state with `List.set` at that index. -/

/-- Record of a single upgrade execution. -/
structure UpgradeEvent where
  card_id : String
  old_level : ℤ
  new_level : ℤ
  dupes_spent : ℤ
  coins_spent : ℤ
  bluestars_earned : ℤ
  day : ℤ
deriving DecidableEq, Repr

/-- Insert an index into a list of indices sorted by `key`, keeping it
before later-inserted equal keys (the stable order of Python's
`list.sort`). -/
def insertSortedBy (key : ℕ → ℤ) (x : ℕ) : List ℕ → List ℕ
  | [] => [x]
  | y :: ys => if key x ≤ key y then x :: y :: ys else y :: insertSortedBy key x ys

/-- Stable insertion sort of a list of indices by `key` ascending. -/
def sortIdxBy (key : ℕ → ℤ) : List ℕ → List ℕ
  | [] => []
  | x :: xs => insertSortedBy key x (sortIdxBy key xs)

/-- The level of the card at index `i` (sort key of the candidate
ranking). -/
def levelKey (game_state : GameState) (i : ℕ) : ℤ :=
  (game_state.cards.getD i default).level

/-- Indices of the cards of one category, in collection order. -/
def categoryIndices (game_state : GameState) (category : CardCategory) :
    List ℕ :=
  (List.range game_state.cards.length).filter
    (fun i => (game_state.cards.getD i default).category = category)

/-- `get_upgrade_candidates`: UNIQUE cards (level ascending), then
GOLD_SHARED, then BLUE_SHARED — as indices into `game_state.cards`. -/
def get_upgrade_candidates (game_state : GameState) (_config : SimConfig) :
    List ℕ :=
  sortIdxBy (levelKey game_state)
      (categoryIndices game_state CardCategory.UNIQUE) ++
    sortIdxBy (levelKey game_state)
      (categoryIndices game_state CardCategory.GOLD_SHARED) ++
    sortIdxBy (levelKey game_state)
      (categoryIndices game_state CardCategory.BLUE_SHARED)

/-- `_can_upgrade`: the four eligibility conditions — below max level,
enough duplicates, enough ledger balance, and (UNIQUE only) the gating
check against the current average shared level scaled to the 0–100
axis. -/
def _can_upgrade (card : Card) (game_state : GameState) (config : SimConfig)
    (coin_ledger : CoinLedger) : Bool :=
  let max_level := maxLevelFor config card.category
  if card.level ≥ max_level then false
  else
    let upgrade_table := config.upgrade_tables card.category
    let dupe_cost := upgrade_table.duplicate_costs.getD (card.level - 1).toNat 0
    let coin_cost := upgrade_table.coin_costs.getD (card.level - 1).toNat 0
    if card.duplicates < dupe_cost then false
    else if coin_ledger.balance < coin_cost then false
    else if card.category = CardCategory.UNIQUE then
      let gold_prog := compute_category_progression game_state.cards
        CardCategory.GOLD_SHARED config.progression_mapping
      let blue_prog := compute_category_progression game_state.cards
        CardCategory.BLUE_SHARED config.progression_mapping
      let avg_shared := (gold_prog + blue_prog) / 2
      let avg_shared_level := avg_shared * 100
      match can_upgrade_unique card avg_shared_level
          config.progression_mapping with
      | Except.ok b => b
      | Except.error _ => false
    else true

/-- `_execute_upgrade` on the card at index `i`: deduct the duplicate
cost, spend the coin cost through the ledger, increment the level, award
bluestars, and report the `UpgradeEvent`.  (The source asserts that the
`spend` succeeds; `ledger_spend_succeeds_of_can_upgrade` below proves it
does whenever `_can_upgrade` held.) -/
def _execute_upgrade (i : ℕ) (game_state : GameState) (config : SimConfig)
    (coin_ledger : CoinLedger) : UpgradeEvent × GameState × CoinLedger :=
  let card := game_state.cards.getD i default
  let old_level := card.level
  let upgrade_table := config.upgrade_tables card.category
  let dupe_cost := upgrade_table.duplicate_costs.getD (card.level - 1).toNat 0
  let coin_cost := upgrade_table.coin_costs.getD (card.level - 1).toNat 0
  let bluestar_reward := upgrade_table.bluestar_rewards.getD (card.level - 1).toNat 0
  let card' := { card with
    duplicates := card.duplicates - dupe_cost
    level := card.level + 1 }
  let spent := coin_ledger.spend coin_cost card.id game_state.day
  let game_state' := { game_state with
    cards := game_state.cards.set i card'
    total_bluestars := game_state.total_bluestars + bluestar_reward }
  (⟨card.id, old_level, old_level + 1, dupe_cost, coin_cost, bluestar_reward,
      game_state.day⟩,
    game_state', spent.2)

/-- One candidate scan of the `attempt_upgrades` loop body: the first
candidate (in priority order) passing `_can_upgrade`, if any. -/
def find_eligible (game_state : GameState) (config : SimConfig)
    (coin_ledger : CoinLedger) : Option ℕ :=
  (get_upgrade_candidates game_state config).find?
    (fun i => _can_upgrade (game_state.cards.getD i default) game_state config
      coin_ledger)

/-- A card's level headroom: how far its level sits below its category
maximum. -/
def cardHeadroom (config : SimConfig) (card : Card) : ℕ :=
  (maxLevelFor config card.category - card.level).toNat

/-- Total level headroom of the collection: the sum over all cards of
(category max level − current level). -/
def totalHeadroom (config : SimConfig) (game_state : GameState) : ℕ :=
  (game_state.cards.map (cardHeadroom config)).sum

/-- The `while True` fixed-point loop of `attempt_upgrades`, with an
explicit fuel.  Each iteration upgrades the first eligible candidate and
restarts the scan; a scan with no eligible candidate stops the loop.
`attempt_upgrades_fuel_add` below shows fuel `totalHeadroom` already
reaches the fixed point, so the fueled loop agrees with the source's
unbounded one. -/
def attempt_upgrades_fuel (config : SimConfig) :
    ℕ → GameState → CoinLedger → List UpgradeEvent × GameState × CoinLedger
  | 0, game_state, coin_ledger => ([], game_state, coin_ledger)
  | fuel + 1, game_state, coin_ledger =>
      match find_eligible game_state config coin_ledger with
      | none => ([], game_state, coin_ledger)
      | some i =>
          let r := _execute_upgrade i game_state config coin_ledger
          let rest := attempt_upgrades_fuel config fuel r.2.1 r.2.2
          (r.1 :: rest.1, rest.2.1, rest.2.2)

/-- `attempt_upgrades`: run the greedy loop to its fixed point.  The
fuel `totalHeadroom` is an upper bound on the number of iterations the
source's `while True` loop can make (every upgrade raises one card's
level, and eligibility needs the level below its category max), and
once no candidate is eligible extra fuel changes nothing. -/
def attempt_upgrades (game_state : GameState) (config : SimConfig)
    (coin_ledger : CoinLedger) :
    List UpgradeEvent × GameState × CoinLedger :=
  attempt_upgrades_fuel config (totalHeadroom config game_state) game_state
    coin_ledger

/-! ## Shareable config codec (`simulation/url_config.py`)

The module composes four external library stages
(`model_dump_json`+UTF-8, `gzip`, `base64.urlsafe_b64*`, pydantic
`model_validate_json`), so the embedding takes the stages as parameters
over an abstract byte-sequence type `β`; the repository code itself is
the composition order and the `try/except` that coalesces every failure
into one `ValueError` wrapping the cause.  Modelled from the spec:
the stages are external collaborators ("structured-text serialization,
generic compression, and URL-safe binary-to-text encoding"), specified
only by their round-trip contracts, which appear as hypotheses of the
claim's theorem. -/

/-- `encode_config`: JSON-dump the config, compress, base64url-encode. -/
def encode_config {β : Type} (model_dump_json : SimConfig → β)
    (gzip_compress : β → β) (urlsafe_b64encode : β → String)
    (config : SimConfig) : String :=
  urlsafe_b64encode (gzip_compress (model_dump_json config))

/-- `decode_config`: base64url-decode, decompress, validate — with every
stage failure re-raised as the single `ValueError`
`"Failed to decode config: <cause>"` (the `try/except Exception`
around the whole pipeline). -/
def decode_config {β : Type} (urlsafe_b64decode : String → Except String β)
    (gzip_decompress : β → Except String β)
    (model_validate_json : β → Except String SimConfig)
    (encoded : String) : Except String SimConfig :=
  match urlsafe_b64decode encoded with
  | Except.error e => Except.error ("Failed to decode config: " ++ e)
  | Except.ok decoded =>
      match gzip_decompress decoded with
      | Except.error e => Except.error ("Failed to decode config: " ++ e)
      | Except.ok decompressed =>
          match model_validate_json decompressed with
          | Except.error e => Except.error ("Failed to decode config: " ++ e)
          | Except.ok config => Except.ok config

/-! ## Spec-side and auxiliary definitions

`claimed_prob_shared` restates the spec's formula chain for the rarity
probability, to be compared against the source-translated `prob_shared`;
`upgraded_card` names the card mutation `_execute_upgrade` performs.
The remaining definitions are concrete fixtures (collections, configs,
ledgers, codec stages) consumed by the witness theorems. -/

/-- The probability of a shared drop exactly as the spec words it:
`s_shared` the mean of gold and blue category progression, `s_unique`
the unique category progression, `gap = s_unique - s_shared`,
`w_shared = base_shared_rate * 1.5^gap`,
`w_unique = base_unique_rate * 1.5^(-gap)`,
`final_shared = w_shared * 0.6^streak_shared`,
`final_unique = w_unique * 0.3^streak_unique`, normalized as
`final_shared / (final_shared + final_unique)`.  Stated independently of
the source-translated `prob_shared` so that the claim's formula can be
compared against it. -/
noncomputable def claimed_prob_shared (game_state : GameState)
    (config : SimConfig) (streak_state : StreakState) : ℝ :=
  let s_sh : ℚ :=
    (compute_category_progression game_state.cards CardCategory.GOLD_SHARED
        config.progression_mapping +
      compute_category_progression game_state.cards CardCategory.BLUE_SHARED
        config.progression_mapping) / 2
  let s_un : ℚ := compute_category_progression game_state.cards
    CardCategory.UNIQUE config.progression_mapping
  let g : ℚ := s_un - s_sh
  let wS : ℝ := (config.base_shared_rate : ℝ) * (1.5 : ℝ) ^ ((g : ℝ))
  let wU : ℝ := (config.base_unique_rate : ℝ) * (1.5 : ℝ) ^ (-(g : ℝ))
  let fS : ℝ := wS * (0.6 : ℝ) ^ streak_state.streak_shared
  let fU : ℝ := wU * (0.3 : ℝ) ^ streak_state.streak_unique
  fS / (fS + fU)

/-- The in-place mutation `_execute_upgrade` applies to the upgraded
card: duplicate cost deducted, level incremented. -/
def upgraded_card (config : SimConfig) (card : Card) : Card :=
  { card with
    duplicates := card.duplicates -
      (config.upgrade_tables card.category).duplicate_costs.getD
        (card.level - 1).toNat 0
    level := card.level + 1 }

/-- A concrete empty collection (day 1, no cards, no currency). -/
def gsW : GameState := ⟨1, [], 0, 0⟩

/-- A concrete configuration with the default 0.70/0.30 base rates. -/
def cfgW : SimConfig :=
  ⟨fun _ => ⟨[], [], []⟩, fun _ => none, ⟨[], []⟩, [], 100, 7/10, 3/10, 100, 10⟩

/-- A concrete progression mapping for the floor-lookup witness. -/
def mW : ProgressionMapping := ⟨[1, 5, 10], [1, 2, 3]⟩

/-- A concrete upgradeable collection: one gold card, level 1 of max 3,
five banked duplicates. -/
def gsW2 : GameState :=
  ⟨1, [⟨"g1", "Gold1", CardCategory.GOLD_SHARED, 1, 5⟩], 0, 0⟩

/-- A concrete config whose upgrade table charges 2 duplicates and
3 coins per step. -/
def cfgW2 : SimConfig :=
  ⟨fun _ => ⟨[2, 2], [3, 3], [1, 1]⟩, fun _ => none, ⟨[], []⟩, [], 100,
    7/10, 3/10, 3, 2⟩

/-- A concrete ledger with 10 coins. -/
def ledgerW : CoinLedger := ⟨10, []⟩

/-- `UpgradeTable` is a triple of integer lists, hence encodable. -/
def upgradeTableEquiv : UpgradeTable ≃ List ℤ × List ℤ × List ℤ where
  toFun t := (t.duplicate_costs, t.coin_costs, t.bluestar_rewards)
  invFun p := ⟨p.1, p.2.1, p.2.2⟩
  left_inv t := rfl
  right_inv p := rfl

instance : Encodable UpgradeTable := Encodable.ofEquiv _ upgradeTableEquiv

/-- `CoinPerDupe` is an integer list, hence encodable. -/
def coinPerDupeEquiv : CoinPerDupe ≃ List ℤ where
  toFun t := t.coins_per_dupe
  invFun l := ⟨l⟩
  left_inv t := rfl
  right_inv l := rfl

instance : Encodable CoinPerDupe := Encodable.ofEquiv _ coinPerDupeEquiv

/-- `ProgressionMapping` is a pair of integer lists, hence encodable. -/
def progressionMappingEquiv : ProgressionMapping ≃ List ℤ × List ℤ where
  toFun m := (m.shared_levels, m.unique_levels)
  invFun p := ⟨p.1, p.2⟩
  left_inv m := rfl
  right_inv p := rfl

instance : Encodable ProgressionMapping :=
  Encodable.ofEquiv _ progressionMappingEquiv

/-- A per-category table is a triple (the category enumeration is
closed), hence encodable whenever the entries are. -/
def catFunEquiv (β : Type) : (CardCategory → β) ≃ β × β × β where
  toFun f := (f CardCategory.GOLD_SHARED, f CardCategory.BLUE_SHARED,
    f CardCategory.UNIQUE)
  invFun p := fun c => match c with
    | CardCategory.GOLD_SHARED => p.1
    | CardCategory.BLUE_SHARED => p.2.1
    | CardCategory.UNIQUE => p.2.2
  left_inv f := funext fun c => by cases c <;> rfl
  right_inv p := rfl

instance {β : Type} [Encodable β] : Encodable (CardCategory → β) :=
  Encodable.ofEquiv _ (catFunEquiv β)

/-- `SimConfig` as the product of its fields. -/
def simConfigEquiv : SimConfig ≃
    (CardCategory → UpgradeTable) × (CardCategory → Option CoinPerDupe) ×
      ProgressionMapping × List (ℤ × ℤ) × ℤ × ℚ × ℚ × ℤ × ℤ where
  toFun c := (c.upgrade_tables, c.coin_per_duplicate, c.progression_mapping,
    c.unique_unlock_schedule, c.num_days, c.base_shared_rate,
    c.base_unique_rate, c.max_shared_level, c.max_unique_level)
  invFun p := ⟨p.1, p.2.1, p.2.2.1, p.2.2.2.1, p.2.2.2.2.1, p.2.2.2.2.2.1,
    p.2.2.2.2.2.2.1, p.2.2.2.2.2.2.2.1, p.2.2.2.2.2.2.2.2⟩
  left_inv c := rfl
  right_inv p := rfl

instance : Encodable SimConfig := Encodable.ofEquiv _ simConfigEquiv

/-- Witness serializer: the `Encodable` encoding of `SimConfig`. -/
def dumpW : SimConfig → ℕ := Encodable.encode

/-- Witness compressor: the identity (losslessness is all the contract
asks). -/
def compressW : ℕ → ℕ := id

/-- Witness binary-to-text stage: unary rendering. -/
def b64encodeW : ℕ → String := fun n => String.mk (List.replicate n 'a')

/-- Witness text-to-binary stage: length of the unary rendering. -/
def b64decodeW : String → Except String ℕ := fun s => Except.ok s.toList.length

/-- Witness decompressor: the identity. -/
def decompressW : ℕ → Except String ℕ := Except.ok

/-- Witness validator: the `Encodable` decoding of `SimConfig`. -/
def validateW : ℕ → Except String SimConfig := fun n =>
  match (Encodable.decode n : Option SimConfig) with
  | some c => Except.ok c
  | none => Except.error "validation failed"

/-! ## C4 — `CoinLedger.spend` is the sole funds gate -/

/-- C4: `spend(amount, card_id, day)` succeeds iff `balance ≥ amount`;
on failure the ledger is unchanged (balance intact, no transaction
appended); on success the balance drops by exactly `amount` and exactly
one spend transaction recording `amount`, `card_id` and `day` is
appended. -/
theorem C4_spend_funds_gate (l : CoinLedger) (amount : ℤ) (card_id : String)
    (day : ℤ) :
    ((l.spend amount card_id day).1 = true ↔ amount ≤ l.balance)
    ∧ ((l.spend amount card_id day).1 = false →
        (l.spend amount card_id day).2 = l)
    ∧ ((l.spend amount card_id day).1 = true →
        (l.spend amount card_id day).2.balance = l.balance - amount ∧
        (l.spend amount card_id day).2.transactions =
          l.transactions ++ [⟨amount, "spend", card_id, day⟩]) := by
  by_cases h : l.balance < amount <;> simp [CoinLedger.spend, h] <;> omega

/-! ## C6 — `update_rarity_streak` keeps the streaks mutually exclusive -/

/-- C6: for every input streak state and chosen category the new state
increments exactly the chosen rarity's counter, zeroes the other one,
passes the per-color and per-hero maps through unchanged (the input
value itself is untouched — the function builds a new record), and
consequently at most one of the two rarity streaks of the output is
nonzero. -/
theorem C6_update_rarity_streak_spec (s : StreakState) (chosen : CardCategory) :
    (update_rarity_streak s chosen).streak_per_color = s.streak_per_color
    ∧ (update_rarity_streak s chosen).streak_per_hero = s.streak_per_hero
    ∧ ((chosen = CardCategory.GOLD_SHARED ∨ chosen = CardCategory.BLUE_SHARED) →
        (update_rarity_streak s chosen).streak_shared = s.streak_shared + 1 ∧
        (update_rarity_streak s chosen).streak_unique = 0)
    ∧ (chosen = CardCategory.UNIQUE →
        (update_rarity_streak s chosen).streak_unique = s.streak_unique + 1 ∧
        (update_rarity_streak s chosen).streak_shared = 0)
    ∧ ((update_rarity_streak s chosen).streak_shared = 0 ∨
        (update_rarity_streak s chosen).streak_unique = 0) := by
  cases chosen <;> simp [update_rarity_streak]

/-! ## C10 — `compute_coin_income` cases -/

/-- C10: a card at or above its category max earns the flat first table
entry, independently of `duplicates_received`; a non-maxed card earns
`table[level-1] * duplicates_received`; a category missing from
`coin_per_duplicate` earns `0`. -/
theorem C10_coin_income_cases (card : Card) (duplicates_received : ℤ)
    (config : SimConfig) :
    (config.coin_per_duplicate card.category = none →
      compute_coin_income card duplicates_received config = 0)
    ∧ (∀ tbl, config.coin_per_duplicate card.category = some tbl →
        (maxLevelFor config card.category ≤ card.level →
          compute_coin_income card duplicates_received config =
            tbl.coins_per_dupe.getD 0 0 ∧
          ∀ d, compute_coin_income card duplicates_received config =
            compute_coin_income card d config)
        ∧ (card.level < maxLevelFor config card.category →
          compute_coin_income card duplicates_received config =
            tbl.coins_per_dupe.getD (card.level - 1).toNat 0 *
              duplicates_received)) := by
  unfold compute_coin_income
  refine ⟨fun hnone => by simp [hnone], fun tbl hsome => ?_⟩
  constructor
  · intro hmax
    refine ⟨by simp [hsome, hmax], fun d => by simp [hsome, hmax]⟩
  · intro hlt
    simp [hsome, not_le.mpr hlt]

/-! ## C2 — the deterministic rarity decision follows the claimed formula -/

/-- C2: with no random source, `decide_rarity` picks GOLD_SHARED exactly
when the claimed normalized probability is `≥ 0.5` and UNIQUE exactly
otherwise. -/
theorem C2_deterministic_decision (game_state : GameState) (config : SimConfig)
    (streak_state : StreakState) :
    (decide_rarity game_state config streak_state none =
        CardCategory.GOLD_SHARED ↔
      0.5 ≤ claimed_prob_shared game_state config streak_state)
    ∧ (decide_rarity game_state config streak_state none =
        CardCategory.UNIQUE ↔
      claimed_prob_shared game_state config streak_state < 0.5) := by
  have hp : claimed_prob_shared game_state config streak_state =
      prob_shared game_state config streak_state := rfl
  by_cases h : prob_shared game_state config streak_state ≥ 0.5
  · simp [decide_rarity, h, hp, not_lt.mpr h]
  · simp [decide_rarity, h, hp, lt_of_not_ge h]

/-! ## C8 — exact normalization of the rarity probabilities -/

/-- C8: for every card collection and streak state (the configured base
rates being positive, as the 0.70/0.30 defaults are), the normalization
denominator `final_shared + final_unique` is nonzero and
`prob_shared + prob_unique = 1` exactly. -/
theorem C8_normalization (game_state : GameState) (config : SimConfig)
    (streak_state : StreakState) (hs : 0 < config.base_shared_rate)
    (hu : 0 ≤ config.base_unique_rate) :
    final_shared game_state config streak_state +
        final_unique game_state config streak_state ≠ 0
    ∧ prob_shared game_state config streak_state +
        prob_unique game_state config streak_state = 1 := by
  have h1 : 0 < final_shared game_state config streak_state := by
    unfold final_shared w_shared GAP_BASE STREAK_DECAY_SHARED
    exact mul_pos
      (mul_pos (by exact_mod_cast hs) (Real.rpow_pos_of_pos (by norm_num) _))
      (pow_pos (by norm_num) _)
  have h2 : 0 ≤ final_unique game_state config streak_state := by
    unfold final_unique w_unique GAP_BASE STREAK_DECAY_UNIQUE
    exact mul_nonneg
      (mul_nonneg (by exact_mod_cast hu)
        (le_of_lt (Real.rpow_pos_of_pos (by norm_num) _)))
      (pow_nonneg (by norm_num) _)
  have htot : 0 < final_shared game_state config streak_state +
      final_unique game_state config streak_state := by linarith
  refine ⟨ne_of_gt htot, ?_⟩
  unfold prob_shared prob_unique
  rw [div_add_div_same, div_self (ne_of_gt htot)]

/-- Witness for `C8_normalization` at a concrete collection, config and
streak state. -/
theorem C8_normalization_witness :
    (0 < cfgW.base_shared_rate) ∧ (0 ≤ cfgW.base_unique_rate) ∧
      prob_shared gsW cfgW ⟨0, 0, [], []⟩ +
        prob_unique gsW cfgW ⟨0, 0, [], []⟩ = 1 :=
  ⟨by norm_num [cfgW], by norm_num [cfgW],
    (C8_normalization gsW cfgW ⟨0, 0, [], []⟩ (by norm_num [cfgW])
      (by norm_num [cfgW])).2⟩

/-! ## C5 — streak penalties strictly lower the penalized probability -/

/-- The core monotonicity fact behind the streak penalty: with positive
weight `A`, positive competing mass `B` and decay `d ∈ (0,1)`, the
normalized share `A*d^n / (A*d^n + B)` strictly decreases in `n`. -/
theorem decayRatio_strictAnti (A B d : ℝ) (hA : 0 < A) (hB : 0 < B)
    (hd : 0 < d) (hd1 : d < 1) :
    ∀ m n : ℕ, m < n →
      A * d ^ n / (A * d ^ n + B) < A * d ^ m / (A * d ^ m + B) := by
  intro m n hmn
  have hx : A * d ^ n < A * d ^ m :=
    mul_lt_mul_of_pos_left (pow_lt_pow_right_of_lt_one₀ hd hd1 hmn) hA
  have hxpos : 0 < A * d ^ n := mul_pos hA (pow_pos hd n)
  have hypos : 0 < A * d ^ m := mul_pos hA (pow_pos hd m)
  rw [div_lt_div_iff₀ (by linarith) (by linarith)]
  nlinarith [mul_lt_mul_of_pos_right hx hB]

/-- C5: for fixed progression scores (hence fixed positive weights),
`prob_shared` strictly decreases as `streak_shared` grows and
`prob_unique` strictly decreases as `streak_unique` grows; and at
balanced progression (`gap = 0`) with the 0.70/0.30 base rates,
`streak_shared = 3` and `streak_unique = 0`, `prob_shared < 0.40`. -/
theorem C5_streak_penalty_monotone (game_state : GameState) (config : SimConfig)
    (hs : 0 < config.base_shared_rate) (hu : 0 < config.base_unique_rate) :
    (∀ pc ph (u m n : ℕ), m < n →
      prob_shared game_state config ⟨n, u, pc, ph⟩ <
        prob_shared game_state config ⟨m, u, pc, ph⟩)
    ∧ (∀ pc ph (sh m n : ℕ), m < n →
      prob_unique game_state config ⟨sh, n, pc, ph⟩ <
        prob_unique game_state config ⟨sh, m, pc, ph⟩)
    ∧ (gap game_state config = 0 → config.base_shared_rate = 7/10 →
      config.base_unique_rate = 3/10 →
      prob_shared game_state config ⟨3, 0, [], []⟩ < 0.40) := by
  have hwS : 0 < w_shared game_state config := by
    unfold w_shared GAP_BASE
    exact mul_pos (by exact_mod_cast hs) (Real.rpow_pos_of_pos (by norm_num) _)
  have hwU : 0 < w_unique game_state config := by
    unfold w_unique GAP_BASE
    exact mul_pos (by exact_mod_cast hu) (Real.rpow_pos_of_pos (by norm_num) _)
  have hdS : (0 : ℝ) < STREAK_DECAY_SHARED := by norm_num [STREAK_DECAY_SHARED]
  have hdS1 : STREAK_DECAY_SHARED < 1 := by norm_num [STREAK_DECAY_SHARED]
  have hdU : (0 : ℝ) < STREAK_DECAY_UNIQUE := by norm_num [STREAK_DECAY_UNIQUE]
  have hdU1 : STREAK_DECAY_UNIQUE < 1 := by norm_num [STREAK_DECAY_UNIQUE]
  refine ⟨?_, ?_, ?_⟩
  · intro pc ph u m n hmn
    have key := decayRatio_strictAnti (w_shared game_state config)
      (w_unique game_state config * STREAK_DECAY_UNIQUE ^ u)
      STREAK_DECAY_SHARED hwS (mul_pos hwU (pow_pos hdU u)) hdS hdS1 m n hmn
    exact key
  · intro pc ph sh m n hmn
    have key := decayRatio_strictAnti (w_unique game_state config)
      (w_shared game_state config * STREAK_DECAY_SHARED ^ sh)
      STREAK_DECAY_UNIQUE hwU (mul_pos hwS (pow_pos hdS sh)) hdU hdU1 m n hmn
    unfold prob_unique final_shared final_unique
    simpa [add_comm] using key
  · intro hgap h7 h3
    unfold prob_shared final_shared final_unique w_shared w_unique GAP_BASE
      STREAK_DECAY_SHARED STREAK_DECAY_UNIQUE
    rw [hgap, h7, h3]
    norm_num [Real.rpow_zero]

/-- Witness for `C5_streak_penalty_monotone` at a concrete collection
and the default-rate configuration. -/
theorem C5_streak_penalty_monotone_witness :
    (0 < cfgW.base_shared_rate) ∧ (0 < cfgW.base_unique_rate) ∧
      prob_shared gsW cfgW ⟨3, 0, [], []⟩ < 0.40 :=
  ⟨by norm_num [cfgW], by norm_num [cfgW],
    (C5_streak_penalty_monotone gsW cfgW (by norm_num [cfgW])
        (by norm_num [cfgW])).2.2
      (by norm_num [gap, s_unique, s_shared, compute_category_progression, gsW])
      (by norm_num [cfgW]) (by norm_num [cfgW])⟩

/-! ## C7 — `get_max_unique_level` is a floor lookup -/

/-- On a strictly increasing list, when the `for`/`break` scan ends with
no applicable entry, every entry exceeds `avg`. -/
theorem find_applicable_none (avg : ℚ) (l : List ℤ)
    (hsorted : l.Pairwise (· < ·)) (hnone : find_applicable avg l = none) :
    ∀ x ∈ l, avg < (x : ℚ) := by
  intro x hx
  cases l with
  | nil => exact absurd hx (List.not_mem_nil x)
  | cons y ys =>
      by_cases hy : (y : ℚ) ≤ avg
      · simp [find_applicable, hy] at hnone
      · rcases List.mem_cons.mp hx with rfl | hxs
        · exact lt_of_not_ge hy
        · have hyx : y < x := (List.pairwise_cons.mp hsorted).1 x hxs
          calc avg < (y : ℚ) := lt_of_not_ge hy
            _ < (x : ℚ) := by exact_mod_cast hyx

/-- On a strictly increasing list, the entry the `for`/`break` scan
settles on is a member, is `≤ avg`, and dominates every member
`≤ avg`. -/
theorem find_applicable_some (avg : ℚ) :
    ∀ l : List ℤ, l.Pairwise (· < ·) → ∀ a, find_applicable avg l = some a →
      a ∈ l ∧ (a : ℚ) ≤ avg ∧ ∀ x ∈ l, (x : ℚ) ≤ avg → x ≤ a := by
  intro l
  induction l with
  | nil => intro _ a h; simp [find_applicable] at h
  | cons y ys ih =>
      intro hsorted a h
      by_cases hy : (y : ℚ) ≤ avg
      · rw [find_applicable, if_pos hy] at h
        have htail : ys.Pairwise (· < ·) := (List.pairwise_cons.mp hsorted).2
        cases hrec : find_applicable avg ys with
        | none =>
            rw [hrec] at h
            simp only [Option.getD_none, Option.some_inj] at h
            rw [← h]
            refine ⟨List.mem_cons_self _ _, hy, ?_⟩
            intro x hx hxle
            rcases List.mem_cons.mp hx with rfl | hxs
            · exact le_refl x
            · exact absurd hxle
                (not_le.mpr (find_applicable_none avg ys htail hrec x hxs))
        | some b =>
            rw [hrec] at h
            simp only [Option.getD_some, Option.some_inj] at h
            rw [← h]
            obtain ⟨hbmem, hble, hbmax⟩ := ih htail b hrec
            refine ⟨List.mem_cons_of_mem _ hbmem, hble, ?_⟩
            intro x hx hxle
            rcases List.mem_cons.mp hx with rfl | hxs
            · exact le_of_lt ((List.pairwise_cons.mp hsorted).1 b hbmem)
            · exact hbmax x hxs hxle
      · rw [find_applicable, if_neg hy] at h
        exact absurd h (by simp)

/-- When a nonempty list's head is `≤ avg`, the scan settles on some
entry. -/
theorem find_applicable_isSome (avg : ℚ) (l : List ℤ) (h0 : 0 < l.length)
    (hhead : (l.get ⟨0, h0⟩ : ℚ) ≤ avg) :
    ∃ a, find_applicable avg l = some a := by
  cases l with
  | nil => exact absurd h0 (by simp)
  | cons y ys =>
      have hy : (y : ℚ) ≤ avg := hhead
      exact ⟨_, by rw [find_applicable, if_pos hy]⟩

/-- On a strictly increasing (hence duplicate-free) list, `indexOf`
recovers an element's position. -/
theorem indexOf_get_of_sorted :
    ∀ (l : List ℤ), l.Pairwise (· < ·) → ∀ (i : ℕ) (hi : i < l.length),
      l.indexOf (l.get ⟨i, hi⟩) = i := by
  intro l
  induction l with
  | nil => intro _ i hi; exact absurd hi (by simp)
  | cons y ys ih =>
      intro hsorted i hi
      cases i with
      | zero => simp [List.indexOf_cons_self]
      | succ j =>
          have hj : j < ys.length := Nat.lt_of_succ_lt_succ hi
          have hget : (y :: ys).get ⟨j + 1, hi⟩ = ys.get ⟨j, hj⟩ := rfl
          have hmem : ys.get ⟨j, hj⟩ ∈ ys := List.get_mem ys j hj
          have hne : y ≠ ys.get ⟨j, hj⟩ :=
            ne_of_lt ((List.pairwise_cons.mp hsorted).1 _ hmem)
          rw [hget, List.indexOf_cons_ne _ (by exact hne),
            ih (List.pairwise_cons.mp hsorted).2 j hj]

/-- C7: for a mapping with same-length lists and strictly increasing
`shared_levels`, `get_max_unique_level` returns the `unique_levels`
entry at the index of the largest `shared_levels` entry `≤ avg`, and
the first `unique_levels` entry when every `shared_levels` entry
exceeds `avg`. -/
theorem C7_floor_lookup (avg : ℚ) (m : ProgressionMapping)
    (hlen : m.shared_levels.length = m.unique_levels.length)
    (hinc : m.shared_levels.Pairwise (· < ·))
    (hne : m.shared_levels ≠ []) :
    (∀ (i : ℕ) (hi : i < m.shared_levels.length),
      (m.shared_levels.get ⟨i, hi⟩ : ℚ) ≤ avg →
      (∀ (j : ℕ) (hj : j < m.shared_levels.length),
        (m.shared_levels.get ⟨j, hj⟩ : ℚ) ≤ avg →
        m.shared_levels.get ⟨j, hj⟩ ≤ m.shared_levels.get ⟨i, hi⟩) →
      get_max_unique_level avg m = m.unique_levels.getD i 0)
    ∧ ((∀ x ∈ m.shared_levels, avg < (x : ℚ)) →
      get_max_unique_level avg m = m.unique_levels.getD 0 0) := by
  have hune : m.unique_levels ≠ [] := by
    intro h
    exact hne (List.length_eq_zero.mp (by rw [hlen, h]; rfl))
  have hcond : ¬(m.shared_levels = [] ∨ m.unique_levels = []) := by
    push_neg
    exact ⟨hne, hune⟩
  constructor
  · intro i hi hle hmax
    have h0 : 0 < m.shared_levels.length := Nat.lt_of_le_of_lt (Nat.zero_le i) hi
    -- the head is ≤ avg, so the scan settles on some entry
    have hheadle : (m.shared_levels.get ⟨0, h0⟩ : ℚ) ≤ avg := by
      rcases Nat.eq_zero_or_pos i with rfl | hipos
      · exact hle
      · have hlt : m.shared_levels.get ⟨0, h0⟩ < m.shared_levels.get ⟨i, hi⟩ :=
          List.pairwise_iff_get.mp hinc ⟨0, h0⟩ ⟨i, hi⟩ hipos
        calc (m.shared_levels.get ⟨0, h0⟩ : ℚ) ≤
              (m.shared_levels.get ⟨i, hi⟩ : ℚ) := by exact_mod_cast le_of_lt hlt
          _ ≤ avg := hle
    obtain ⟨a, hsome⟩ := find_applicable_isSome avg m.shared_levels h0 hheadle
    obtain ⟨hamem, hale, hamax⟩ :=
      find_applicable_some avg m.shared_levels hinc a hsome
    -- the settled entry is exactly the i-th one
    have haeq : a = m.shared_levels.get ⟨i, hi⟩ := by
      obtain ⟨⟨j, hj⟩, hgetj⟩ := List.mem_iff_get.mp hamem
      refine le_antisymm ?_ (hamax _ (List.get_mem _ i hi) hle)
      rw [← hgetj]
      exact hmax j hj (by rw [hgetj]; exact hale)
    unfold get_max_unique_level
    rw [if_neg hcond, hsome]
    show m.unique_levels.getD (m.shared_levels.indexOf a) 0 =
      m.unique_levels.getD i 0
    rw [haeq, indexOf_get_of_sorted m.shared_levels hinc i hi]
  · intro hall
    obtain ⟨y, ys, hcons⟩ := List.exists_cons_of_ne_nil hne
    have hnone : find_applicable avg m.shared_levels = none := by
      rw [hcons, find_applicable,
        if_neg (not_le.mpr (hall y (by rw [hcons]; exact List.mem_cons_self _ _)))]
    unfold get_max_unique_level
    rw [if_neg hcond, hnone]

/-- Witness for `C7_floor_lookup`: with thresholds 1/5/10 and average
shared level 7, the largest threshold `≤ 7` is 5 (index 1), giving
unique level 2. -/
theorem C7_floor_lookup_witness :
    (mW.shared_levels.length = mW.unique_levels.length ∧
      mW.shared_levels.Pairwise (· < ·) ∧ mW.shared_levels ≠ []) ∧
    get_max_unique_level 7 mW = 2 := by
  refine ⟨⟨by decide, by decide, by decide⟩, ?_⟩
  have h := (C7_floor_lookup 7 mW (by decide) (by decide) (by decide)).1 1
    (by decide) (by norm_num [mW]) ?_
  · simpa [mW] using h
  · intro j hj hle
    have hj3 : j < 3 := by simpa [mW] using hj
    interval_cases j
    · exact (by norm_num : (1 : ℤ) ≤ 5)
    · exact le_rfl
    · exact absurd hle (by norm_num [mW])

/-! ## Upgrade-engine lemmas shared by C1 and C3 -/

/-- Membership through `insertSortedBy`. -/
theorem mem_insertSortedBy (key : ℕ → ℤ) (x : ℕ) :
    ∀ (l : List ℕ) (a : ℕ), a ∈ insertSortedBy key x l ↔ a = x ∨ a ∈ l := by
  intro l
  induction l with
  | nil => intro a; simp [insertSortedBy]
  | cons y ys ih =>
      intro a
      unfold insertSortedBy
      by_cases hk : key x ≤ key y
      · simp [hk]
      · simp [hk, ih]
        tauto

/-- Membership through the stable insertion sort. -/
theorem mem_sortIdxBy (key : ℕ → ℤ) :
    ∀ (l : List ℕ) (a : ℕ), a ∈ sortIdxBy key l ↔ a ∈ l := by
  intro l
  induction l with
  | nil => intro a; simp [sortIdxBy]
  | cons y ys ih =>
      intro a
      simp [sortIdxBy, mem_insertSortedBy, ih]

/-- Every candidate index refers to a card of the collection. -/
theorem mem_candidates_lt (game_state : GameState) (config : SimConfig)
    (i : ℕ) (hmem : i ∈ get_upgrade_candidates game_state config) :
    i < game_state.cards.length := by
  unfold get_upgrade_candidates at hmem
  simp only [List.mem_append, mem_sortIdxBy] at hmem
  rcases hmem with (h | h) | h
  all_goals
    unfold categoryIndices at h
    exact List.mem_range.mp (List.mem_of_mem_filter h)

/-- The first three eligibility conditions, extracted from a successful
`_can_upgrade`. -/
theorem can_upgrade_facts (card : Card) (game_state : GameState)
    (config : SimConfig) (coin_ledger : CoinLedger)
    (h : _can_upgrade card game_state config coin_ledger = true) :
    card.level < maxLevelFor config card.category
    ∧ (config.upgrade_tables card.category).duplicate_costs.getD
        (card.level - 1).toNat 0 ≤ card.duplicates
    ∧ (config.upgrade_tables card.category).coin_costs.getD
        (card.level - 1).toNat 0 ≤ coin_ledger.balance := by
  unfold _can_upgrade at h
  dsimp only at h
  split_ifs at h with h1 h2 h3 h4
  · exact ⟨lt_of_not_ge h1, not_lt.mp h2, not_lt.mp h3⟩
  · exact ⟨lt_of_not_ge h1, not_lt.mp h2, not_lt.mp h3⟩

/-- The coin spend performed by `_execute_upgrade` always succeeds when
`_can_upgrade` held — the source's `assert` never fires. -/
theorem ledger_spend_succeeds_of_can_upgrade (card : Card)
    (game_state : GameState) (config : SimConfig) (coin_ledger : CoinLedger)
    (h : _can_upgrade card game_state config coin_ledger = true) :
    (coin_ledger.spend ((config.upgrade_tables card.category).coin_costs.getD
      (card.level - 1).toNat 0) card.id game_state.day).1 = true := by
  have h3 := (can_upgrade_facts card game_state config coin_ledger h).2.2
  unfold CoinLedger.spend
  rw [if_neg (not_lt.mpr h3)]

/-- Replacing one list entry shifts a mapped sum by the difference of
the images: `sum (set i b) + f l[i] = sum l + f b`. -/
theorem sum_map_set (f : Card → ℕ) :
    ∀ (l : List Card) (i : ℕ) (b : Card), i < l.length →
      ((l.set i b).map f).sum + f (l.getD i default) = (l.map f).sum + f b := by
  intro l
  induction l with
  | nil => intro i b hi; exact absurd hi (by simp)
  | cons x xs ih =>
      intro i b hi
      cases i with
      | zero => simp only [List.set_cons_zero, List.map_cons, List.sum_cons,
          List.getD_cons_zero]; ring
      | succ j =>
          have hj : j < xs.length := Nat.lt_of_succ_lt_succ hi
          have := ih j b hj
          simp only [List.set_cons_succ, List.map_cons, List.sum_cons,
            List.getD_cons_succ]
          omega

/-- The post-state of `_execute_upgrade`, spelled out. -/
theorem execute_state_eq (i : ℕ) (game_state : GameState) (config : SimConfig)
    (coin_ledger : CoinLedger) :
    (_execute_upgrade i game_state config coin_ledger).2.1.cards =
      game_state.cards.set i
        (upgraded_card config (game_state.cards.getD i default)) := rfl

/-- The post-ledger of `_execute_upgrade`, spelled out. -/
theorem execute_ledger_eq (i : ℕ) (game_state : GameState) (config : SimConfig)
    (coin_ledger : CoinLedger) :
    (_execute_upgrade i game_state config coin_ledger).2.2 =
      (coin_ledger.spend
        ((config.upgrade_tables (game_state.cards.getD i default).category).coin_costs.getD
          ((game_state.cards.getD i default).level - 1).toNat 0)
        (game_state.cards.getD i default).id game_state.day).2 := rfl

/-- Executing an eligible upgrade lowers the total level headroom by
exactly one. -/
theorem totalHeadroom_execute (game_state : GameState) (config : SimConfig)
    (coin_ledger : CoinLedger) (i : ℕ) (hi : i < game_state.cards.length)
    (helig : _can_upgrade (game_state.cards.getD i default) game_state config
      coin_ledger = true) :
    totalHeadroom config (_execute_upgrade i game_state config coin_ledger).2.1
      + 1 = totalHeadroom config game_state := by
  have hlt := (can_upgrade_facts _ _ _ _ helig).1
  unfold totalHeadroom
  rw [execute_state_eq]
  have hsum := sum_map_set (cardHeadroom config) game_state.cards i
    (upgraded_card config (game_state.cards.getD i default)) hi
  have hheads : cardHeadroom config
        (upgraded_card config (game_state.cards.getD i default)) + 1 =
      cardHeadroom config (game_state.cards.getD i default) := by
    unfold cardHeadroom upgraded_card
    dsimp only
    omega
  omega

/-- With zero total headroom no candidate is eligible: every card is at
its category maximum, so the first `_can_upgrade` check fails. -/
theorem find_eligible_none_of_headroom_zero (game_state : GameState)
    (config : SimConfig) (coin_ledger : CoinLedger)
    (h : totalHeadroom config game_state = 0) :
    find_eligible game_state config coin_ledger = none := by
  unfold find_eligible
  apply List.find?_eq_none.mpr
  intro i hi
  have hlt := mem_candidates_lt game_state config i hi
  have hcard : game_state.cards.getD i default ∈ game_state.cards := by
    rw [List.getD_eq_getElem _ _ hlt]
    exact List.getElem_mem hlt
  have hzero : cardHeadroom config (game_state.cards.getD i default) = 0 := by
    have hz := (List.sum_eq_zero_iff).mp h
    exact hz _ (List.mem_map_of_mem _ hcard)
  have hge : maxLevelFor config (game_state.cards.getD i default).category ≤
      (game_state.cards.getD i default).level := by
    unfold cardHeadroom at hzero
    omega
  unfold _can_upgrade
  rw [if_pos hge]
  simp

/-- What a successful candidate scan yields: a valid index whose card
passes `_can_upgrade`. -/
theorem find_eligible_spec (game_state : GameState) (config : SimConfig)
    (coin_ledger : CoinLedger) (i : ℕ)
    (hfind : find_eligible game_state config coin_ledger = some i) :
    i < game_state.cards.length
    ∧ _can_upgrade (game_state.cards.getD i default) game_state config
        coin_ledger = true := by
  have hf : (get_upgrade_candidates game_state config).find?
      (fun j => _can_upgrade (game_state.cards.getD j default) game_state config
        coin_ledger) = some i := hfind
  exact ⟨mem_candidates_lt game_state config i (List.mem_of_find?_eq_some hf),
    by simpa using List.find?_some hf⟩

/-- One executed upgrade preserves the resource bounds: duplicates and
balance stay nonnegative and every level stays at or below its category
maximum. -/
theorem execute_preserves_bounds (game_state : GameState) (config : SimConfig)
    (coin_ledger : CoinLedger) (i : ℕ) (hi : i < game_state.cards.length)
    (helig : _can_upgrade (game_state.cards.getD i default) game_state config
      coin_ledger = true)
    (hcards : ∀ c ∈ game_state.cards,
      0 ≤ c.duplicates ∧ c.level ≤ maxLevelFor config c.category)
    (hbal : 0 ≤ coin_ledger.balance) :
    (∀ c ∈ (_execute_upgrade i game_state config coin_ledger).2.1.cards,
      0 ≤ c.duplicates ∧ c.level ≤ maxLevelFor config c.category)
    ∧ 0 ≤ (_execute_upgrade i game_state config coin_ledger).2.2.balance := by
  obtain ⟨hlt, hdup, hcoin⟩ := can_upgrade_facts _ _ _ _ helig
  constructor
  · intro c hc
    rw [execute_state_eq] at hc
    rcases List.mem_or_eq_of_mem_set hc with hcm | rfl
    · exact hcards c hcm
    · constructor
      · unfold upgraded_card
        dsimp only
        omega
      · unfold upgraded_card
        dsimp only
        omega
  · rw [execute_ledger_eq]
    unfold CoinLedger.spend
    rw [if_neg (not_lt.mpr hcoin)]
    dsimp only
    omega

/-- The fueled fixed-point loop preserves the resource bounds, whatever
the fuel. -/
theorem attempt_upgrades_fuel_bounds (config : SimConfig) :
    ∀ (fuel : ℕ) (game_state : GameState) (coin_ledger : CoinLedger),
      (∀ c ∈ game_state.cards,
        0 ≤ c.duplicates ∧ c.level ≤ maxLevelFor config c.category) →
      0 ≤ coin_ledger.balance →
      (∀ c ∈ (attempt_upgrades_fuel config fuel game_state coin_ledger).2.1.cards,
        0 ≤ c.duplicates ∧ c.level ≤ maxLevelFor config c.category)
      ∧ 0 ≤ (attempt_upgrades_fuel config fuel game_state coin_ledger).2.2.balance := by
  intro fuel
  induction fuel with
  | zero => intro gs l hc hb; exact ⟨hc, hb⟩
  | succ n ih =>
      intro gs l hc hb
      cases hfind : find_eligible gs config l with
      | none =>
          simp only [attempt_upgrades_fuel, hfind]
          exact ⟨hc, hb⟩
      | some i =>
          obtain ⟨hi, helig⟩ := find_eligible_spec gs config l i hfind
          obtain ⟨hc', hb'⟩ := execute_preserves_bounds gs config l i hi helig hc hb
          have hrec := ih (_execute_upgrade i gs config l).2.1
            (_execute_upgrade i gs config l).2.2 hc' hb'
          simpa only [attempt_upgrades_fuel, hfind] using hrec

/-- C1: `attempt_upgrades` preserves the resource bounds — starting from
nonnegative duplicates, levels at or below their category maxima and a
nonnegative ledger balance, every executed upgrade leaves all three
intact. -/
theorem C1_upgrades_preserve_bounds (game_state : GameState)
    (config : SimConfig) (coin_ledger : CoinLedger)
    (hcards : ∀ c ∈ game_state.cards,
      0 ≤ c.duplicates ∧ c.level ≤ maxLevelFor config c.category)
    (hbal : 0 ≤ coin_ledger.balance) :
    (∀ c ∈ (attempt_upgrades game_state config coin_ledger).2.1.cards,
      0 ≤ c.duplicates ∧ c.level ≤ maxLevelFor config c.category)
    ∧ 0 ≤ (attempt_upgrades game_state config coin_ledger).2.2.balance :=
  attempt_upgrades_fuel_bounds config (totalHeadroom config game_state)
    game_state coin_ledger hcards hbal

/-- Witness for `C1_upgrades_preserve_bounds` on a concrete scenario in
which upgrades do execute. -/
theorem C1_upgrades_preserve_bounds_witness :
    ((∀ c ∈ gsW2.cards, 0 ≤ c.duplicates ∧ c.level ≤ maxLevelFor cfgW2 c.category)
      ∧ 0 ≤ ledgerW.balance)
    ∧ ((∀ c ∈ (attempt_upgrades gsW2 cfgW2 ledgerW).2.1.cards,
        0 ≤ c.duplicates ∧ c.level ≤ maxLevelFor cfgW2 c.category)
      ∧ 0 ≤ (attempt_upgrades gsW2 cfgW2 ledgerW).2.2.balance) :=
  ⟨⟨by decide, by decide⟩,
    C1_upgrades_preserve_bounds gsW2 cfgW2 ledgerW (by decide) (by decide)⟩

/-- The fueled loop's upgrade count is bounded by the total headroom,
and with enough fuel the loop genuinely reaches the fixed point: no
candidate is eligible afterwards. -/
theorem attempt_upgrades_fuel_fix (config : SimConfig) :
    ∀ (fuel : ℕ) (game_state : GameState) (coin_ledger : CoinLedger),
      totalHeadroom config game_state ≤ fuel →
      (attempt_upgrades_fuel config fuel game_state coin_ledger).1.length ≤
        totalHeadroom config game_state
      ∧ find_eligible
          (attempt_upgrades_fuel config fuel game_state coin_ledger).2.1 config
          (attempt_upgrades_fuel config fuel game_state coin_ledger).2.2 = none := by
  intro fuel
  induction fuel with
  | zero =>
      intro gs l hfuel
      have h0 : totalHeadroom config gs = 0 := Nat.le_zero.mp hfuel
      exact ⟨by simp [attempt_upgrades_fuel],
        by simpa [attempt_upgrades_fuel] using
          find_eligible_none_of_headroom_zero gs config l h0⟩
  | succ n ih =>
      intro gs l hfuel
      cases hfind : find_eligible gs config l with
      | none =>
          refine ⟨by simp [attempt_upgrades_fuel, hfind], ?_⟩
          simpa only [attempt_upgrades_fuel, hfind] using hfind
      | some i =>
          obtain ⟨hi, helig⟩ := find_eligible_spec gs config l i hfind
          have hhead := totalHeadroom_execute gs config l i hi helig
          have hle : totalHeadroom config (_execute_upgrade i gs config l).2.1 ≤ n := by
            omega
          obtain ⟨ihlen, ihfix⟩ := ih (_execute_upgrade i gs config l).2.1
            (_execute_upgrade i gs config l).2.2 hle
          constructor
          · have hcons : (attempt_upgrades_fuel config (n + 1) gs l).1.length =
                (attempt_upgrades_fuel config n (_execute_upgrade i gs config l).2.1
                  (_execute_upgrade i gs config l).2.2).1.length + 1 := by
              simp [attempt_upgrades_fuel, hfind]
            omega
          · simpa only [attempt_upgrades_fuel, hfind] using ihfix

/-- Extra fuel beyond the total headroom never changes the result: the
fueled loop at `totalHeadroom` already computes the `while True` loop's
fixed point. -/
theorem attempt_upgrades_fuel_add (config : SimConfig) :
    ∀ (fuel : ℕ) (game_state : GameState) (coin_ledger : CoinLedger),
      totalHeadroom config game_state ≤ fuel → ∀ k,
      attempt_upgrades_fuel config (fuel + k) game_state coin_ledger =
        attempt_upgrades_fuel config fuel game_state coin_ledger := by
  intro fuel
  induction fuel with
  | zero =>
      intro gs l hfuel k
      have h0 : totalHeadroom config gs = 0 := Nat.le_zero.mp hfuel
      have hfind := find_eligible_none_of_headroom_zero gs config l h0
      cases k with
      | zero => rfl
      | succ m => simp [attempt_upgrades_fuel, hfind]
  | succ n ih =>
      intro gs l hfuel k
      have hsucc : n + 1 + k = (n + k) + 1 := by omega
      rw [hsucc]
      cases hfind : find_eligible gs config l with
      | none => simp [attempt_upgrades_fuel, hfind]
      | some i =>
          obtain ⟨hi, helig⟩ := find_eligible_spec gs config l i hfind
          have hhead := totalHeadroom_execute gs config l i hi helig
          have hle : totalHeadroom config (_execute_upgrade i gs config l).2.1 ≤ n := by
            omega
          simp only [attempt_upgrades_fuel, hfind]
          rw [ih (_execute_upgrade i gs config l).2.1
            (_execute_upgrade i gs config l).2.2 hle k]

/-- C3: `attempt_upgrades` terminates after at most the total level
headroom many upgrades (each executed upgrade strictly raises one card's
level, and eligibility needs the level below its category max — no
assumption that coins or duplicates decrease), and the state it returns
is a true fixed point: one further full candidate scan finds nothing
eligible. -/
theorem C3_terminates_within_headroom (game_state : GameState)
    (config : SimConfig) (coin_ledger : CoinLedger) :
    (attempt_upgrades game_state config coin_ledger).1.length ≤
      totalHeadroom config game_state
    ∧ find_eligible (attempt_upgrades game_state config coin_ledger).2.1 config
        (attempt_upgrades game_state config coin_ledger).2.2 = none :=
  attempt_upgrades_fuel_fix config (totalHeadroom config game_state) game_state
    coin_ledger le_rfl

/-! ## C9 — shareable-config round trip and error coalescing

The C9 theorem is stated over the abstract external stages with their
documented inverse contracts as hypotheses; the witness instantiates the
stages with concrete invertible functions (an `Encodable` encoding of
`SimConfig` into `ℕ` as the serializer, the identity as the compressor
and a unary rendering as the binary-to-text stage). -/

/-- C9: when each external stage inverts its encoder (the contracts of
base64url, gzip and pydantic JSON validation), `decode_config` inverts
`encode_config` on every configuration; and on every input string
`decode_config` either returns a complete `SimConfig` or the single
decode-failure error wrapping the underlying cause — never a
partially-valid object. -/
theorem C9_codec_roundtrip {β : Type} (model_dump_json : SimConfig → β)
    (gzip_compress : β → β) (urlsafe_b64encode : β → String)
    (urlsafe_b64decode : String → Except String β)
    (gzip_decompress : β → Except String β)
    (model_validate_json : β → Except String SimConfig)
    (hb : ∀ bs, urlsafe_b64decode (urlsafe_b64encode bs) = Except.ok bs)
    (hg : ∀ bs, gzip_decompress (gzip_compress bs) = Except.ok bs)
    (hv : ∀ c, model_validate_json (model_dump_json c) = Except.ok c) :
    (∀ c, decode_config urlsafe_b64decode gzip_decompress model_validate_json
      (encode_config model_dump_json gzip_compress urlsafe_b64encode c) =
        Except.ok c)
    ∧ (∀ s, (∃ c, decode_config urlsafe_b64decode gzip_decompress
          model_validate_json s = Except.ok c)
        ∨ (∃ cause, decode_config urlsafe_b64decode gzip_decompress
            model_validate_json s =
          Except.error ("Failed to decode config: " ++ cause))) := by
  constructor
  · intro c
    unfold decode_config encode_config
    simp only [hb, hg, hv]
  · intro s
    cases h1 : urlsafe_b64decode s with
    | error e => exact Or.inr ⟨e, by simp [decode_config, h1]⟩
    | ok decoded =>
        cases h2 : gzip_decompress decoded with
        | error e => exact Or.inr ⟨e, by simp [decode_config, h1, h2]⟩
        | ok decompressed =>
            cases h3 : model_validate_json decompressed with
            | error e => exact Or.inr ⟨e, by simp [decode_config, h1, h2, h3]⟩
            | ok config => exact Or.inl ⟨config, by simp [decode_config, h1, h2, h3]⟩

/-- The unary text stage satisfies the base64url contract. -/
theorem b64W_inverts (n : ℕ) : b64decodeW (b64encodeW n) = Except.ok n := by
  simp [b64decodeW, b64encodeW, String.toList]

/-- The witness validator inverts the witness serializer. -/
theorem validateW_inverts (c : SimConfig) : validateW (dumpW c) = Except.ok c := by
  unfold validateW dumpW
  rw [Encodable.encodek]

/-- Witness for `C9_codec_roundtrip`: the concrete stage instantiation
round-trips the concrete configuration `cfgW`. -/
theorem C9_codec_roundtrip_witness :
    decode_config b64decodeW decompressW validateW
      (encode_config dumpW compressW b64encodeW cfgW) = Except.ok cfgW :=
  (C9_codec_roundtrip dumpW compressW b64encodeW b64decodeW decompressW
    validateW b64W_inverts (fun n => rfl) validateW_inverts).1 cfgW

end CHEcon
